import Mathlib

/-!
Verification development for the Forex-Market-Analysis-Tool repository
(`lab3.py` and `fxp_bytes_subscriber.py`).

Modelling conventions:
* Python dicts are embedded as association lists with first-match lookup
  (`lookupA`) and replace-or-append update (`updateA`), mirroring dict
  insertion-order semantics.
* The pair id string `"BASE/QUOTE"` is embedded as the pair
  `(BASE, QUOTE) : String × String`; `process_quotes` joins the two codes
  with `"/"` and `build_graph` splits them back, so for currency codes not
  containing `'/'` this keying is exact.
* Python floats are embedded as exact rationals `ℚ`; `math.log` values are
  embedded as `Real.log` terms.  `math.log` raises `ValueError` on a
  non-positive argument; that partiality is kept explicitly (`Except`).
* Python exceptions are `Except.error`; since `process_quotes` mutates the
  subscriber object in place before a possible `math.log` failure, its error
  value carries the state at raise time.
* Trace `print` calls (including the `strftime` formatting of the quote
  timestamp) are log-level side effects and are elided.
-/

/-- Association-list lookup: the embedding of a Python dict read
(`d[k]` and `d.get(k)`), returning the first binding of the key. -/
def lookupA {κ α : Type} [DecidableEq κ] : List (κ × α) → κ → Option α
  | [], _ => none
  | (k, a) :: rest, k₀ => if k₀ = k then some a else lookupA rest k₀

/-- Association-list store: the embedding of a Python dict write `d[k] = v`
(replace the binding in place if the key is present, append otherwise). -/
def updateA {κ α : Type} [DecidableEq κ] (l : List (κ × α)) (k : κ) (v : α) :
    List (κ × α) :=
  if (lookupA l k).isSome then
    l.map (fun p => if p.1 = k then (k, v) else p)
  else
    l ++ [(k, v)]

theorem lookupA_nil {κ α : Type} [DecidableEq κ] (k : κ) :
    lookupA ([] : List (κ × α)) k = none := rfl

theorem lookupA_append {κ α : Type} [DecidableEq κ] (l₁ l₂ : List (κ × α)) (k : κ) :
    lookupA (l₁ ++ l₂) k =
      match lookupA l₁ k with
      | some a => some a
      | none => lookupA l₂ k := by
  induction l₁ with
  | nil => simp [lookupA]
  | cons p rest ih =>
    obtain ⟨k₁, a₁⟩ := p
    by_cases h : k = k₁ <;> simp [lookupA, h, ih]

theorem lookupA_map_update {κ α : Type} [DecidableEq κ]
    (l : List (κ × α)) (k k₀ : κ) (v : α) (h : k₀ ≠ k) :
    lookupA (l.map (fun p => if p.1 = k then (k, v) else p)) k₀ = lookupA l k₀ := by
  induction l with
  | nil => simp [lookupA]
  | cons p rest ih =>
    obtain ⟨k₁, a₁⟩ := p
    simp only [List.map_cons]
    by_cases hk : k₁ = k
    · subst hk
      rw [show (if ((k₁, a₁) : κ × α).1 = k₁ then (k₁, v) else (k₁, a₁)) = (k₁, v) by simp]
      simp [lookupA, h, ih]
    · rw [show (if ((k₁, a₁) : κ × α).1 = k then (k, v) else (k₁, a₁)) = (k₁, a₁) by
        simp [hk]]
      by_cases hk₀ : k₀ = k₁ <;> simp [lookupA, hk₀, ih]

theorem lookupA_map_update_self {κ α : Type} [DecidableEq κ]
    (l : List (κ × α)) (k : κ) (v : α) (h : (lookupA l k).isSome) :
    lookupA (l.map (fun p => if p.1 = k then (k, v) else p)) k = some v := by
  induction l with
  | nil => simp [lookupA] at h
  | cons p rest ih =>
    obtain ⟨k₁, a₁⟩ := p
    simp only [List.map_cons]
    by_cases hk : k₁ = k
    · subst hk
      rw [show (if ((k₁, a₁) : κ × α).1 = k₁ then (k₁, v) else (k₁, a₁)) = (k₁, v) by simp]
      simp [lookupA]
    · have hne : ¬ k = k₁ := fun hE => hk hE.symm
      simp only [lookupA, if_neg hne] at h
      rw [show (if ((k₁, a₁) : κ × α).1 = k then (k, v) else (k₁, a₁)) = (k₁, a₁) by
        simp [hk]]
      simp [lookupA, hne, ih h]

/-- Characterisation of dict update: looking up `k` after `d[k] = v`
gives `v`, and every other key is unchanged. -/
theorem lookupA_updateA {κ α : Type} [DecidableEq κ]
    (l : List (κ × α)) (k k₀ : κ) (v : α) :
    lookupA (updateA l k v) k₀ = if k₀ = k then some v else lookupA l k₀ := by
  by_cases h : k₀ = k
  · subst h
    unfold updateA
    by_cases hs : (lookupA l k₀).isSome
    · simp [hs, lookupA_map_update_self l k₀ v hs]
    · have hnone : lookupA l k₀ = none := by
        cases hE : lookupA l k₀ with
        | none => rfl
        | some a => rw [hE] at hs; simp at hs
      simp [hs, lookupA_append, hnone, lookupA]
  · unfold updateA
    by_cases hs : (lookupA l k).isSome
    · simp [hs, lookupA_map_update l k k₀ v h, h]
    · simp only [hs, if_false, Bool.false_eq_true, lookupA_append]
      cases lookupA l k₀ <;> simp [lookupA, h]

/-! ## WireCodec (`fxp_bytes_subscriber.py`)

Bytes are embedded as `List Nat` (each element a byte value `< 256`; the
claims never depend on the bound).  The 4-byte little-endian IEEE-754
float32 rate field is represented by its 32-bit pattern: the byte-level
decode `struct.unpack` is injective up to this pattern, and no settled
claim interprets the pattern numerically. -/

/-- `bytes.decode('ascii')`: succeeds iff every byte is `< 128`
(else Python raises `UnicodeDecodeError`). -/
def decode_ascii (bs : List Nat) : Except String String :=
  if ∀ b ∈ bs, b < 128 then .ok (String.mk (bs.map Char.ofNat))
  else .error "UnicodeDecodeError"

/-- `struct.unpack('<f', bs)`: requires exactly 4 bytes, read little-endian
(result is the 32-bit pattern of the float). -/
def unpack_f32le (bs : List Nat) : Except String Nat :=
  if bs.length = 4 then .ok (bs.foldr (fun b acc => b + 256 * acc) 0)
  else .error "struct.error"

/-- `struct.unpack('>Q', bs)`: requires exactly 8 bytes, read big-endian. -/
def unpack_u64be (bs : List Nat) : Except String Nat :=
  if bs.length = 8 then .ok (bs.foldl (fun acc b => acc * 256 + b) 0)
  else .error "struct.error"

/-- A decoded wire record (`unmarshal_message` item): the dict
`{'currency1', 'currency2', 'rate', 'timestamp'}`, with the float32 rate
kept as its 32-bit pattern. -/
structure WireQuote where
  currency1 : String
  currency2 : String
  rate : Nat
  timestamp : Nat
deriving DecidableEq

/-- Decode one (possibly short) 32-byte stride `chunk = data[i:i+32]` of
`unmarshal_message`: ascii codes from bytes 0-2 and 3-5, rate from bytes
6-9, timestamp from bytes 10-17; bytes 18-31 are padding and ignored. -/
def decode_frame (chunk : List Nat) : Except String WireQuote :=
  match decode_ascii (chunk.take 3) with
  | .error e => .error e
  | .ok c1 =>
    match decode_ascii ((chunk.drop 3).take 3) with
    | .error e => .error e
    | .ok c2 =>
      match unpack_f32le ((chunk.drop 6).take 4) with
      | .error e => .error e
      | .ok r =>
        match unpack_u64be ((chunk.drop 10).take 8) with
        | .error e => .error e
        | .ok ts => .ok ⟨c1, c2, r, ts⟩

/-- Fuel-indexed loop of `unmarshal_message` (`for i in range(0, len(data), 32)`).
Each iteration consumes at least one byte, so fuel `data.length` always
suffices; the fuel only makes the recursion structural. -/
def unmarshal_aux : Nat → List Nat → Except String (List WireQuote)
  | _, [] => .ok []
  | 0, _ :: _ => .ok []
  | fuel + 1, b :: bs =>
    match decode_frame ((b :: bs).take 32) with
    | .error e => .error e
    | .ok q =>
      match unmarshal_aux fuel ((b :: bs).drop 32) with
      | .error e => .error e
      | .ok qs => .ok (q :: qs)

/-- `unmarshal_message(data)`: decode the buffer in fixed 32-byte strides.
A raised exception (`struct.error`, `UnicodeDecodeError`) propagates out of
the whole call. -/
def unmarshal_message (data : List Nat) : Except String (List WireQuote) :=
  unmarshal_aux data.length data

/-! ## QuoteLedger (`lab3.py`, `ForexSubscriber`)

A quote handed to `process_quotes` is the decoded dict with all four keys
present; the rate is the exact rational value of the decoded float. -/

/-- A decoded quote as consumed by `process_quotes`. -/
structure Quote where
  currency1 : String
  currency2 : String
  rate : ℚ
  timestamp : Nat
deriving DecidableEq

/-- A `quotes_dict` value: `{'price': rate, 'time': datetime.utcnow()}`.
The local receive time is a rational number of seconds. -/
structure MarketEntry where
  price : ℚ
  time : ℚ
deriving DecidableEq

/-- The mutable state of a `ForexSubscriber`: `latest_timestamp`,
`quotes_dict`, the (both-direction) `graph` attribute written by
`process_quotes`, and `total_session_profit`. -/
structure SubscriberState where
  latest_timestamp : List ((String × String) × Nat)
  quotes_dict : List ((String × String) × MarketEntry)
  graph : List ((String × String) × ℝ)
  total_session_profit : ℚ

/-- `QUOTE_EXPIRY = timedelta(seconds=1.5)`. -/
def QUOTE_EXPIRY : ℚ := 3 / 2

/-- The out-of-sequence test of `process_quotes`:
`market in self.latest_timestamp and timestamp <= self.latest_timestamp[market]`. -/
def out_of_sequence (latest : List ((String × String) × Nat))
    (market : String × String) (ts : Nat) : Bool :=
  match lookupA latest market with
  | some t => decide (ts ≤ t)
  | none => false

/-- The body of the `process_quotes` loop for one quote.  Mirrors the source
order: falsy-field validation, out-of-sequence check, then update of
`latest_timestamp` and `quotes_dict`, then the graph update whose
`math.log(rate)` raises `ValueError` on a non-positive rate — at which point
`latest_timestamp` and `quotes_dict` have already been mutated, so the error
carries that intermediate state. -/
noncomputable def process_quote (now : ℚ) (s : SubscriberState) (q : Quote) :
    Except (String × SubscriberState) SubscriberState :=
  if q.currency1 = "" ∨ q.currency2 = "" ∨ q.rate = 0 ∨ q.timestamp = 0 then
    .ok s
  else if out_of_sequence s.latest_timestamp (q.currency1, q.currency2) q.timestamp then
    .ok s
  else
    let s₁ : SubscriberState :=
      { s with
        latest_timestamp :=
          updateA s.latest_timestamp (q.currency1, q.currency2) q.timestamp,
        quotes_dict :=
          updateA s.quotes_dict (q.currency1, q.currency2) ⟨q.rate, now⟩ }
    if q.rate ≤ 0 then
      .error ("math domain error", s₁)
    else
      .ok { s₁ with
            graph :=
              updateA
                (updateA s₁.graph (q.currency1, q.currency2) (-Real.log q.rate))
                (q.currency2, q.currency1) (-Real.log (1 / q.rate)) }

/-- `process_quotes(quotes)`: the loop over the decoded batch.  An uncaught
exception aborts the loop and propagates. -/
noncomputable def process_quotes (now : ℚ) (s : SubscriberState) :
    List Quote → Except (String × SubscriberState) SubscriberState
  | [] => .ok s
  | q :: qs =>
    match process_quote now s q with
    | .ok s₁ => process_quotes now s₁ qs
    | .error e => .error e

/-- `remove_stale_quotes()`: delete every `quotes_dict` entry older than
`QUOTE_EXPIRY`; `latest_timestamp` is not touched. -/
def remove_stale_quotes (now : ℚ) (s : SubscriberState) : SubscriberState :=
  { s with
    quotes_dict :=
      s.quotes_dict.filter (fun p => !(decide (now - p.2.time > QUOTE_EXPIRY))) }

/-! ## NegativeCycleDetector graph construction

Modelled from the spec: `bellman_ford.py` is not under `src/`; §4.3 of the
spec describes its graph as a directed edge list with deterministic
insertion order plus a vertex set, populated through `add_edge`.  Only the
container is modelled; the shortest-path routine is not needed by any
claim. -/

/-- Modelled from the spec: the `BellmanFord` graph container of the missing
`bellman_ford.py` — directed weighted edges in insertion order and the
vertex set. -/
structure BellmanFord where
  edges : List (String × String × ℝ)
  vertices : List String

/-- Modelled from the spec: `bf.add_edge(u, v, w)` appends the directed edge
and registers both endpoints as vertices. -/
noncomputable def BellmanFord.add_edge (bf : BellmanFord) (u v : String) (w : ℝ) :
    BellmanFord :=
  let withU := if u ∈ bf.vertices then bf.vertices else bf.vertices ++ [u]
  { edges := bf.edges ++ [(u, v, w)],
    vertices := if v ∈ withU then withU else withU ++ [v] }

/-- `build_graph()`: one `add_edge(currency1, currency2, -log(rate))` call per
live `quotes_dict` entry (`market.split('/')` is the inverse of the join used
to build the pair id).  `math.log` would raise on a non-positive stored
price; theorems about states reachable through accepted quotes assume
positive prices, matching the source. -/
noncomputable def build_graph
    (quotes_dict : List ((String × String) × MarketEntry)) : BellmanFord :=
  quotes_dict.foldl
    (fun bf p => bf.add_edge p.1.1 p.1.2 (-Real.log p.2.price)) ⟨[], []⟩

/-- The (source, target) keys of a detection graph's edge list. -/
def edgeKeys (bf : BellmanFord) : List (String × String) :=
  bf.edges.map (fun e => (e.1, e.2.1))

/-! ## CycleResolver (`reconstruct_negative_cycle`) -/

/-- Fuel-indexed backward predecessor walk of `reconstruct_negative_cycle`:
`while current != v and current is not None: if current in visited: break;
visited.add(current); cycle.append(current); current = predecessor.get(current)`.
The predecessor dict is an association list of `String` values;
`dict.get` returns `none` for an absent key (a stored Python `None`
behaves identically under `.get`, so it is not represented separately). -/
def walkAux (pred : List (String × String)) (v : String) :
    Nat → List String → List String → Option String → List String
  | 0, cycle, _, _ => cycle
  | fuel + 1, cycle, visited, current =>
    match current with
    | none => cycle
    | some c =>
      if c = v then cycle
      else if c ∈ visited then cycle
      else walkAux pred v fuel (cycle ++ [c]) (c :: visited) (lookupA pred c)

/-- Whether the backward walk hits an already-visited vertex before reaching
`v` (the `break` branch of the loop). -/
def walkHitsRevisit (pred : List (String × String)) (v : String) :
    Nat → List String → Option String → Bool
  | 0, _, _ => false
  | fuel + 1, visited, current =>
    match current with
    | none => false
    | some c =>
      if c = v then false
      else if c ∈ visited then true
      else walkHitsRevisit pred v fuel (c :: visited) (lookupA pred c)

/-- `reconstruct_negative_cycle(negative_cycle_edge, predecessor)`: walk
predecessors back from `u`, close the list with `v`, reverse it, and return
`[]` only when fewer than 3 vertices were collected.  Fuel `pred.length + 1`
is sufficient (each step adds a fresh vertex of `u :: pred.map Prod.snd`
to `visited`); the stabilisation theorem below justifies this choice. -/
def reconstruct_negative_cycle (pred : List (String × String))
    (negative_cycle_edge : String × String) : List String :=
  let u := negative_cycle_edge.1
  let v := negative_cycle_edge.2
  let walked := walkAux pred v (pred.length + 1) [v] [] (some u)
  let cycle := (walked ++ [v]).reverse
  if cycle.length < 3 then [] else cycle

/-! ## ProfitSimulator (`display_arbitrage`) -/

/-- Fuel-indexed rotation loop of `display_arbitrage`:
`while cycle[0] != 'USD': cycle.append(cycle.pop(0))`.  One rotation step
per fuel unit; fuel `cycle.length` suffices on every reachable call because
the loop is entered only after checking `'USD' in cycle`, and each element
reaches the front within `length - 1` rotations. -/
def rotAux : Nat → List String → List String
  | 0, l => l
  | fuel + 1, l =>
    match l with
    | [] => []
    | h :: t => if h = "USD" then h :: t else rotAux fuel (t ++ [h])

/-- The rotation performed by `display_arbitrage` before simulation. -/
def rotateToUSD (cycle : List String) : List String :=
  rotAux cycle.length cycle

/-- The fallback `1 / self.quotes_dict[f"{curr_to}/{curr_from}"]['price']`:
`KeyError` if the reverse entry is absent, `ZeroDivisionError` if its price
is exactly zero. -/
def inverse_rate (qd : List ((String × String) × MarketEntry))
    (curr_from curr_to : String) : Except String ℚ :=
  match lookupA qd (curr_to, curr_from) with
  | some e => if e.price = 0 then .error "ZeroDivisionError" else .ok (1 / e.price)
  | none => .error "KeyError"

/-- One hop's rate:
`self.quotes_dict.get(cross, {}).get('price') or 1 / self.quotes_dict[...]`.
A stored price of `0.0` is falsy, so Python's `or` falls through to the
inverse lookup in that case as well. -/
def hop_rate (qd : List ((String × String) × MarketEntry))
    (curr_from curr_to : String) : Except String ℚ :=
  match lookupA qd (curr_from, curr_to) with
  | some e => if e.price = 0 then inverse_rate qd curr_from curr_to else .ok e.price
  | none => inverse_rate qd curr_from curr_to

/-- The conversion loop `for i in range(len(cycle) - 1): ... amount *= rate`. -/
def simulate_hops (qd : List ((String × String) × MarketEntry)) (amount : ℚ) :
    List String → Except String ℚ
  | a :: b :: rest =>
    match hop_rate qd a b with
    | .ok r => simulate_hops qd (amount * r) (b :: rest)
    | .error e => .error e
  | _ => .ok amount

/-- `display_arbitrage(cycle)`: skip when `'USD'` is not in the cycle,
otherwise rotate to USD, convert a starting amount of 100 along consecutive
hops, and add `amount - 100` to `total_session_profit`.  An uncaught
`KeyError`/`ZeroDivisionError` from a hop-rate lookup propagates before the
profit total is touched. -/
def display_arbitrage (s : SubscriberState) (cycle : List String) :
    Except String SubscriberState :=
  if "USD" ∈ cycle then
    match simulate_hops s.quotes_dict 100 (rotateToUSD cycle) with
    | .ok amount =>
      .ok { s with total_session_profit := s.total_session_profit + (amount - 100) }
    | .error e => .error e
  else .ok s

/-! ## Claim theorems -/

/-- C10: a decoded record with every field present but `rate == 0.0` or
`timestamp == 0` is rejected as incomplete by the falsy-field validation of
`process_quotes`, leaving the entire subscriber state (ledger, timestamp
map, graph, profit) unchanged. -/
theorem C10_falsy_rejected (now : ℚ) (s : SubscriberState) (q : Quote)
    (h : q.rate = 0 ∨ q.timestamp = 0) :
    process_quote now s q = .ok s := by
  unfold process_quote
  rcases h with h | h <;> simp [h]

/-- Witness for C10 at a concrete zero-rate quote. -/
theorem C10_falsy_rejected_witness :
    process_quote 0 ⟨[], [], [], 0⟩ ⟨"USD", "EUR", 0, 5⟩ =
      .ok (⟨[], [], [], 0⟩ : SubscriberState) :=
  C10_falsy_rejected 0 ⟨[], [], [], 0⟩ ⟨"USD", "EUR", 0, 5⟩ (Or.inl rfl)

/-- The subscriber state after accepting `USD/EUR` at rate 2, timestamp 100,
with local clock 0 (used by the C7 concrete-acceptance conjunct). -/
noncomputable def exState₁ : SubscriberState :=
  ⟨[(("USD", "EUR"), 100)], [(("USD", "EUR"), ⟨2, 0⟩)],
   [(("USD", "EUR"), -Real.log 2), (("EUR", "USD"), -Real.log (1 / 2))], 0⟩

/-- `exState₁` after additionally accepting `USD/EUR` at rate 4,
timestamp 200. -/
noncomputable def exState₂ : SubscriberState :=
  ⟨[(("USD", "EUR"), 200)], [(("USD", "EUR"), ⟨4, 0⟩)],
   [(("USD", "EUR"), -Real.log 4), (("EUR", "USD"), -Real.log (1 / 4))], 0⟩

/-- C7: per pair, the tracked `latest_timestamp` is strictly increasing
across accepted quotes and never removed or decreased — a stale quote
(timestamp ≤ tracked) leaves the whole state unchanged, processing never
decreases any tracked value, acceptance stores exactly the strictly larger
new timestamp, `remove_stale_quotes` never touches the timestamp map, and
feeding timestamps 100, 50, 200 for one pair accepts only 100 and 200. -/
theorem C7_timestamp_monotonic :
    (∀ (now : ℚ) (s : SubscriberState) (q : Quote) (t : Nat),
        lookupA s.latest_timestamp (q.currency1, q.currency2) = some t →
        q.timestamp ≤ t → process_quote now s q = .ok s) ∧
    (∀ (now : ℚ) (s : SubscriberState) (q : Quote) (s₂ : SubscriberState),
        process_quote now s q = .ok s₂ →
        ∀ (p : String × String) (t : Nat),
          lookupA s.latest_timestamp p = some t →
          ∃ t₂, lookupA s₂.latest_timestamp p = some t₂ ∧ t ≤ t₂) ∧
    (∀ (now : ℚ) (s : SubscriberState) (q : Quote) (s₂ : SubscriberState),
        process_quote now s q = .ok s₂ →
        s₂.latest_timestamp ≠ s.latest_timestamp →
        lookupA s₂.latest_timestamp (q.currency1, q.currency2) = some q.timestamp ∧
        ∀ t, lookupA s.latest_timestamp (q.currency1, q.currency2) = some t →
          t < q.timestamp) ∧
    (∀ (now : ℚ) (s : SubscriberState),
        (remove_stale_quotes now s).latest_timestamp = s.latest_timestamp) ∧
    (process_quote 0 ⟨[], [], [], 0⟩ ⟨"USD", "EUR", 2, 100⟩ = .ok exState₁ ∧
     lookupA exState₁.latest_timestamp ("USD", "EUR") = some 100 ∧
     process_quote 0 exState₁ ⟨"USD", "EUR", 3, 50⟩ = .ok exState₁ ∧
     process_quote 0 exState₁ ⟨"USD", "EUR", 4, 200⟩ = .ok exState₂ ∧
     lookupA exState₂.latest_timestamp ("USD", "EUR") = some 200) := by
  refine ⟨?_, ?_, ?_, ?_, ?_, ?_, ?_, ?_, ?_⟩
  · -- stale quotes are rejected with no state change
    intro now s q t hl hle
    unfold process_quote
    by_cases h1 : q.currency1 = "" ∨ q.currency2 = "" ∨ q.rate = 0 ∨ q.timestamp = 0
    · simp [h1]
    · have h2 : out_of_sequence s.latest_timestamp (q.currency1, q.currency2)
          q.timestamp = true := by
        unfold out_of_sequence
        rw [hl]
        simpa using hle
      simp [h1, h2]
  · -- processing never removes or decreases a tracked timestamp
    intro now s q s₂ h p t hl
    unfold process_quote at h
    split_ifs at h with h1 h2 h3
    · cases h
      exact ⟨t, hl, le_refl t⟩
    · cases h
      exact ⟨t, hl, le_refl t⟩
    · cases h
      rw [lookupA_updateA]
      by_cases hp : p = (q.currency1, q.currency2)
      · subst hp
        refine ⟨q.timestamp, by simp, ?_⟩
        unfold out_of_sequence at h2
        rw [hl] at h2
        simp at h2
        exact le_of_lt h2
      · exact ⟨t, by simp [hp, hl], le_refl t⟩
  · -- acceptance stores exactly the strictly larger timestamp
    intro now s q s₂ h hne
    unfold process_quote at h
    split_ifs at h with h1 h2 h3
    · cases h
      exact absurd rfl hne
    · cases h
      exact absurd rfl hne
    · cases h
      constructor
      · rw [lookupA_updateA]
        simp
      · intro t hl
        unfold out_of_sequence at h2
        rw [hl] at h2
        simpa using h2
  · -- stale-entry expiry never touches the timestamp map
    intro now s
    rfl
  · rfl
  · rfl
  · rfl
  · rfl
  · rfl

/-- Witness for C7: the stale-rejection conjunct applied at the concrete
state tracking timestamp 100 and an out-of-sequence quote at 50. -/
theorem C7_timestamp_monotonic_witness :
    process_quote 0 exState₁ ⟨"USD", "EUR", 3, 50⟩ = .ok exState₁ :=
  C7_timestamp_monotonic.1 0 exState₁ ⟨"USD", "EUR", 3, 50⟩ 100 (by rfl) (by decide)

/-- C6 counterexample: a decoded record with `rate = -1` (invalid, negative)
passes the falsy-field validation of `process_quotes` — `-1` is truthy — and
reaches `math.log` on a negative argument, raising `ValueError` instead of
being rejected-and-skipped; `latest_timestamp` and `quotes_dict` have
already been mutated when the exception is raised. -/
theorem C6_counterexample :
    process_quote 0 ⟨[], [], [], 0⟩ ⟨"USD", "EUR", -1, 7⟩ =
      .error ("math domain error",
        ⟨[(("USD", "EUR"), 7)], [(("USD", "EUR"), ⟨-1, 0⟩)], [], 0⟩) := by
  rfl

/-- C6 amended: ingest rejects a record with `rate == 0` (falsy) without
touching the state and without calling `log`; but a record with `rate < 0`
and otherwise valid, in-sequence fields passes the validation and reaches
`math.log` on a negative argument, raising `ValueError` and aborting the
batch after `latest_timestamp` and `quotes_dict` have been updated. -/
theorem C6_amended :
    (∀ (now : ℚ) (s : SubscriberState) (q : Quote), q.rate = 0 →
        process_quote now s q = .ok s) ∧
    (∀ (now : ℚ) (s : SubscriberState) (q : Quote),
        q.rate < 0 → q.currency1 ≠ "" → q.currency2 ≠ "" → q.timestamp ≠ 0 →
        out_of_sequence s.latest_timestamp (q.currency1, q.currency2)
          q.timestamp = false →
        process_quote now s q =
          .error ("math domain error",
            { s with
              latest_timestamp :=
                updateA s.latest_timestamp (q.currency1, q.currency2) q.timestamp,
              quotes_dict :=
                updateA s.quotes_dict (q.currency1, q.currency2)
                  ⟨q.rate, now⟩ })) := by
  constructor
  · intro now s q h
    unfold process_quote
    simp [h]
  · intro now s q hneg h1 h2 h3 hseq
    unfold process_quote
    rw [if_neg, if_neg, if_pos (le_of_lt hneg)]
    · rw [hseq]
      simp
    · push_neg
      exact ⟨h1, h2, ne_of_lt hneg, h3⟩

/-- Witness for C6's amended theorem at a concrete negative-rate quote. -/
theorem C6_amended_witness :
    process_quote 0 ⟨[], [], [], 0⟩ ⟨"USD", "EUR", -1, 7⟩ =
      .error ("math domain error",
        ⟨[(("USD", "EUR"), 7)], [(("USD", "EUR"), ⟨-1, 0⟩)], [], 0⟩) :=
  C6_amended.2 0 ⟨[], [], [], 0⟩ ⟨"USD", "EUR", -1, 7⟩ (by norm_num)
    (by decide) (by decide) (by decide) (by rfl)

/-- C2: with a validated USD cycle whose hop `USD → EUR` has no live entry
in either direction (both expired), `display_arbitrage` raises an uncaught
`KeyError` — it does not abort the pass gracefully as the claim states
(the session profit total is untouched only because the exception fires
before the accumulation line). -/
theorem C2_missing_rate_raises :
    display_arbitrage ⟨[], [], [], 0⟩ ["USD", "EUR", "USD"] = .error "KeyError" := by
  rfl

/-- C4: rotating the reconstructed cycle `[EUR, USD, GBP, EUR]` (closed:
first element repeated as last, containing the anchor USD) with
`while cycle[0] != 'USD': cycle.append(cycle.pop(0))` yields
`[USD, GBP, EUR, EUR]` — it starts at USD but ends at EUR, not USD, because
the duplicated closing element is rotated into the interior. -/
theorem C4_rotation_failing :
    rotateToUSD ["EUR", "USD", "GBP", "EUR"] = ["USD", "GBP", "EUR", "EUR"] ∧
    ["EUR", "USD", "GBP", "EUR"].head? = some "EUR" ∧
    ["EUR", "USD", "GBP", "EUR"].getLast? = some "EUR" ∧
    "USD" ∈ ["EUR", "USD", "GBP", "EUR"] ∧
    (rotateToUSD ["EUR", "USD", "GBP", "EUR"]).getLast? ≠ some "USD" := by
  decide

/-- The finite carrier of the backward walk: the start vertex `u` together
with every stored predecessor value.  Every `current` the loop ever sees is
drawn from this list, and every iteration moves a fresh element of it into
`visited`. -/
def predCarrier (pred : List (String × String)) (u : String) : List String :=
  u :: pred.map Prod.snd

/-- Number of carrier elements not yet visited (the loop variant). -/
def freshCount (S visited : List String) : Nat :=
  (S.filter (fun x => !(decide (x ∈ visited)))).length

theorem lookupA_mem_values (pred : List (String × String)) (c d : String)
    (h : lookupA pred c = some d) : d ∈ pred.map Prod.snd := by
  induction pred with
  | nil => simp [lookupA] at h
  | cons p rest ih =>
    obtain ⟨k, a⟩ := p
    by_cases hk : c = k
    · simp only [lookupA, if_pos hk, Option.some.injEq] at h
      simp [h]
    · simp only [lookupA, if_neg hk] at h
      simp [ih h]

theorem freshCount_cons_le (S visited : List String) (c : String) :
    freshCount S (c :: visited) ≤ freshCount S visited := by
  induction S with
  | nil => simp [freshCount]
  | cons a S ih =>
    unfold freshCount at ih ⊢
    by_cases ha : a ∈ visited
    · have ha' : a ∈ c :: visited := List.mem_cons_of_mem _ ha
      simp only [List.filter_cons]
      simp only [show (!decide (a ∈ c :: visited)) = false by simp [ha'],
        show (!decide (a ∈ visited)) = false by simp [ha]]
      simp only [Bool.false_eq_true, if_false]
      exact ih
    · by_cases hac : a = c
      · subst hac
        have ha' : a ∈ a :: visited := List.mem_cons_self a visited
        simp only [List.filter_cons]
        simp only [show (!decide (a ∈ a :: visited)) = false by simp,
          show (!decide (a ∈ visited)) = true by simp [ha]]
        simp only [Bool.false_eq_true, if_false, if_true, List.length_cons]
        exact le_trans ih (Nat.le_succ _)
      · have ha' : a ∉ c :: visited := by
          simp [List.mem_cons, hac, ha]
        simp only [List.filter_cons]
        simp only [show (!decide (a ∈ c :: visited)) = true by simp [ha'],
          show (!decide (a ∈ visited)) = true by simp [ha]]
        simp only [if_true, List.length_cons]
        omega

theorem freshCount_cons_lt (S visited : List String) (c : String)
    (hc : c ∈ S) (hnv : c ∉ visited) :
    freshCount S (c :: visited) < freshCount S visited := by
  induction S with
  | nil => simp at hc
  | cons a S ih =>
    unfold freshCount at ih ⊢
    by_cases hac : a = c
    · subst hac
      have ha' : a ∈ a :: visited := List.mem_cons_self a visited
      simp only [List.filter_cons]
      simp only [show (!decide (a ∈ a :: visited)) = false by simp,
        show (!decide (a ∈ visited)) = true by simp [hnv]]
      simp only [Bool.false_eq_true, if_false, if_true, List.length_cons]
      have := freshCount_cons_le S visited a
      unfold freshCount at this
      omega
    · have hc' : c ∈ S := by
        rcases List.mem_cons.mp hc with h | h
        · exact absurd h.symm hac
        · exact h
      by_cases ha : a ∈ visited
      · have ha' : a ∈ c :: visited := List.mem_cons_of_mem _ ha
        simp only [List.filter_cons]
        simp only [show (!decide (a ∈ c :: visited)) = false by simp [ha'],
          show (!decide (a ∈ visited)) = false by simp [ha]]
        simp only [Bool.false_eq_true, if_false]
        exact ih hc'
      · have ha' : a ∉ c :: visited := by
          simp [List.mem_cons, hac, ha]
        simp only [List.filter_cons]
        simp only [show (!decide (a ∈ c :: visited)) = true by simp [ha'],
          show (!decide (a ∈ visited)) = true by simp [ha]]
        simp only [if_true, List.length_cons]
        have := ih hc'
        omega

theorem freshCount_nil_visited (S : List String) :
    freshCount S [] = S.length := by
  simp [freshCount]

/-- One unfolding of the walk when the loop body actually runs. -/
theorem walkAux_step (pred : List (String × String)) (v : String)
    (n : Nat) (cycle visited : List String) (c : String)
    (hv : c ≠ v) (hvis : c ∉ visited) :
    walkAux pred v (n + 1) cycle visited (some c) =
      walkAux pred v n (cycle ++ [c]) (c :: visited) (lookupA pred c) := by
  simp [walkAux, hv, hvis]

/-- Once every reachable carrier vertex is visited, extra fuel does not
change the walk's result (the loop has terminated). -/
theorem walkAux_stable (pred : List (String × String)) (v u : String) :
    ∀ (n : Nat) (cycle visited : List String) (current : Option String),
      (∀ c, current = some c → c ∈ predCarrier pred u) →
      freshCount (predCarrier pred u) visited ≤ n →
      walkAux pred v (n + 1) cycle visited current =
        walkAux pred v n cycle visited current := by
  intro n
  induction n with
  | zero =>
    intro cycle visited current hcur hfresh
    cases current with
    | none => simp [walkAux]
    | some c =>
      have hvis : c ∈ visited := by
        have hS : c ∈ predCarrier pred u := hcur c rfl
        by_contra hnv
        have := freshCount_cons_lt (predCarrier pred u) visited c hS hnv
        omega
      by_cases hv : c = v
      · simp [walkAux, hv]
      · simp [walkAux, hv, hvis]
  | succ n ih =>
    intro cycle visited current hcur hfresh
    cases current with
    | none => simp [walkAux]
    | some c =>
      by_cases hv : c = v
      · simp [walkAux, hv]
      · by_cases hvis : c ∈ visited
        · simp [walkAux, hv, hvis]
        · have hcS : c ∈ predCarrier pred u := hcur c rfl
          rw [walkAux_step pred v (n + 1) cycle visited c hv hvis,
            walkAux_step pred v n cycle visited c hv hvis]
          apply ih
          · intro d hd
            exact List.mem_cons_of_mem _ (lookupA_mem_values pred c d hd)
          · have := freshCount_cons_lt (predCarrier pred u) visited c hcS hvis
            omega

/-- C9: for every predecessor map (including malformed ones containing
cycles that never pass through `v`), the backward predecessor walk of
`reconstruct_negative_cycle` terminates: its fuel-indexed unrolling
stabilises at fuel `pred.length + 1` — all larger fuels give the same
result, so the unbounded `while` loop of the source reaches a terminal
configuration within that many iterations. -/
theorem C9_walk_terminates (pred : List (String × String)) (u v : String)
    (n : Nat) (h : pred.length + 1 ≤ n) :
    walkAux pred v n [v] [] (some u) =
      walkAux pred v (pred.length + 1) [v] [] (some u) := by
  induction n, h using Nat.le_induction with
  | base => rfl
  | succ n hn ih =>
    rw [← ih]
    apply walkAux_stable
    · intro c hc
      cases hc
      exact List.mem_cons_self u _
    · rw [freshCount_nil_visited]
      simp only [predCarrier, List.length_cons, List.length_map]
      omega

/-- Witness for C9 at a concrete malformed predecessor map containing a
cycle that does not pass through `v`. -/
theorem C9_walk_terminates_witness :
    walkAux [("EUR", "GBP"), ("GBP", "EUR")] "USD" 7 ["USD"] [] (some "EUR") =
      walkAux [("EUR", "GBP"), ("GBP", "EUR")] "USD" 3 ["USD"] [] (some "EUR") :=
  C9_walk_terminates [("EUR", "GBP"), ("GBP", "EUR")] "EUR" "USD" 7 (by decide)

/-- The walk only ever appends to the accumulated cycle list. -/
theorem walkAux_extends (pred : List (String × String)) (v : String) :
    ∀ (n : Nat) (cycle visited : List String) (current : Option String),
      ∃ t, walkAux pred v n cycle visited current = cycle ++ t := by
  intro n
  induction n with
  | zero =>
    intro cycle visited current
    exact ⟨[], by simp [walkAux]⟩
  | succ n ih =>
    intro cycle visited current
    cases current with
    | none => exact ⟨[], by simp [walkAux]⟩
    | some c =>
      by_cases hv : c = v
      · exact ⟨[], by simp [walkAux, hv]⟩
      · by_cases hvis : c ∈ visited
        · exact ⟨[], by simp [walkAux, hv, hvis]⟩
        · obtain ⟨t, ht⟩ := ih (cycle ++ [c]) (c :: visited) (lookupA pred c)
          refine ⟨[c] ++ t, ?_⟩
          rw [walkAux_step pred v n cycle visited c hv hvis, ht]
          simp

/-- C5 counterexample: for witness edge `(EUR, USD)` and the malformed
predecessor map `{EUR ↦ GBP, GBP ↦ EUR}`, the backward walk revisits `EUR`
before ever reaching `USD`, yet `reconstruct_negative_cycle` returns the
non-empty sequence `[USD, GBP, EUR, USD]` rather than the empty result the
claim requires. -/
theorem C5_counterexample :
    walkHitsRevisit [("EUR", "GBP"), ("GBP", "EUR")] "USD" 3 [] (some "EUR") = true ∧
    reconstruct_negative_cycle [("EUR", "GBP"), ("GBP", "EUR")] ("EUR", "USD") =
      ["USD", "GBP", "EUR", "USD"] ∧
    reconstruct_negative_cycle [("EUR", "GBP"), ("GBP", "EUR")] ("EUR", "USD") ≠
      [] := by
  decide

/-- C5 amended: on a revisit the walk merely stops; the sequence is still
closed with `v`, reversed, and returned.  The empty result occurs exactly
when the witness edge is degenerate (`u = v`, the self-loop artifact in
which no vertex is collected): for all predecessor maps,
`reconstruct_negative_cycle pred (u, v) = [] ↔ u = v`. -/
theorem C5_amended (pred : List (String × String)) (u v : String) :
    reconstruct_negative_cycle pred (u, v) = [] ↔ u = v := by
  have hun : reconstruct_negative_cycle pred (u, v) =
      (if ((walkAux pred v (pred.length + 1) [v] [] (some u)) ++ [v]).reverse.length < 3
       then []
       else ((walkAux pred v (pred.length + 1) [v] [] (some u)) ++ [v]).reverse) := rfl
  rw [hun]
  by_cases huv : u = v
  · subst huv
    simp [walkAux]
  · have hstep :
        walkAux pred v (pred.length + 1) [v] [] (some u) =
          walkAux pred v pred.length ([v] ++ [u]) [u] (lookupA pred u) :=
      walkAux_step pred v pred.length [v] [] u huv (by simp)
    obtain ⟨t, ht⟩ :=
      walkAux_extends pred v pred.length ([v] ++ [u]) [u] (lookupA pred u)
    rw [hstep, ht]
    have hlen : (([v] ++ [u] ++ t) ++ [v]).reverse.length = t.length + 3 := by
      simp
    rw [if_neg (by omega)]
    constructor
    · intro hE
      have := congrArg List.length hE
      rw [hlen] at this
      simp at this
    · intro hE
      exact absurd hE huv

/-- The edge list accumulated by the `build_graph` loop from any starting
container. -/
theorem build_graph_loop_edges (qd : List ((String × String) × MarketEntry)) :
    ∀ init : BellmanFord,
      (qd.foldl (fun bf p => bf.add_edge p.1.1 p.1.2 (-Real.log p.2.price))
        init).edges =
        init.edges ++ qd.map (fun p => (p.1.1, p.1.2, -Real.log p.2.price)) := by
  induction qd with
  | nil => intro init; simp
  | cons p rest ih =>
    intro init
    simp only [List.foldl_cons, List.map_cons]
    rw [ih]
    simp [BellmanFord.add_edge]

/-- C1 counterexample: with a single live entry `USD/EUR` (price 2), the
graph handed to negative-cycle detection contains the directed edge
`USD → EUR` but no edge `EUR → USD` at all — `build_graph` adds exactly one
directed edge per stored pair, contradicting the claim that both directed
edges are present. -/
theorem C1_counterexample :
    ("USD", "EUR") ∈ edgeKeys (build_graph [(("USD", "EUR"), ⟨2, 0⟩)]) ∧
    ("EUR", "USD") ∉ edgeKeys (build_graph [(("USD", "EUR"), ⟨2, 0⟩)]) := by
  constructor <;>
    simp [edgeKeys, build_graph, BellmanFord.add_edge]

/-- C1 amended: the detection graph built by `build_graph` contains exactly
one directed edge per live `MarketEntry`, namely `A → B` with weight
`-ln(rate)` for the entry stored under `A/B`, in insertion order; no reverse
edge `B → A` is added unless a separate entry `B/A` is live.  (The
both-direction adjacency written by `process_quotes` lives in the separate
`graph` attribute, which is never handed to detection.) -/
theorem C1_amended (qd : List ((String × String) × MarketEntry)) :
    edgeKeys (build_graph qd) = qd.map (fun p => p.1) ∧
    (∀ (A B : String) (e : MarketEntry), ((A, B), e) ∈ qd →
      (A, B, -Real.log e.price) ∈ (build_graph qd).edges) := by
  constructor
  · unfold edgeKeys build_graph
    rw [build_graph_loop_edges]
    simp [List.map_map]
  · intro A B e hmem
    unfold build_graph
    rw [build_graph_loop_edges]
    simp only [List.nil_append, List.mem_map]
    exact ⟨((A, B), e), hmem, rfl⟩

/-- Witness for C1's amended theorem at the one-entry ledger. -/
theorem C1_amended_witness :
    ("USD", "EUR", -Real.log 2) ∈
      (build_graph [(("USD", "EUR"), (⟨2, 0⟩ : MarketEntry))]).edges :=
  (C1_amended [(("USD", "EUR"), ⟨2, 0⟩)]).2 "USD" "EUR" ⟨2, 0⟩ (by simp)

/-- A stride of at least 18 bytes whose first six bytes are ASCII decodes to
a full record (the bytes beyond offset 17 are padding). -/
theorem decode_frame_ok (chunk : List Nat) (h18 : 18 ≤ chunk.length)
    (hascii : ∀ b ∈ chunk.take 6, b < 128) :
    ∃ q, decode_frame chunk = .ok q := by
  have htk : chunk.take 6 = chunk.take 3 ++ (chunk.drop 3).take 3 :=
    List.take_add chunk 3 3
  have h1 : ∀ b ∈ chunk.take 3, b < 128 := by
    intro b hb
    exact hascii b (htk ▸ List.mem_append.mpr (Or.inl hb))
  have h2 : ∀ b ∈ (chunk.drop 3).take 3, b < 128 := by
    intro b hb
    exact hascii b (htk ▸ List.mem_append.mpr (Or.inr hb))
  have e1 : decode_ascii (chunk.take 3) =
      .ok (String.mk ((chunk.take 3).map Char.ofNat)) := by
    unfold decode_ascii
    rw [if_pos h1]
  have e2 : decode_ascii ((chunk.drop 3).take 3) =
      .ok (String.mk (((chunk.drop 3).take 3).map Char.ofNat)) := by
    unfold decode_ascii
    rw [if_pos h2]
  have l3 : ((chunk.drop 6).take 4).length = 4 := by
    simp only [List.length_take, List.length_drop]
    omega
  have e3 : unpack_f32le ((chunk.drop 6).take 4) =
      .ok (((chunk.drop 6).take 4).foldr (fun b acc => b + 256 * acc) 0) := by
    unfold unpack_f32le
    rw [if_pos l3]
  have l4 : ((chunk.drop 10).take 8).length = 8 := by
    simp only [List.length_take, List.length_drop]
    omega
  have e4 : unpack_u64be ((chunk.drop 10).take 8) =
      .ok (((chunk.drop 10).take 8).foldl (fun acc b => acc * 256 + b) 0) := by
    unfold unpack_u64be
    rw [if_pos l4]
  refine ⟨⟨String.mk ((chunk.take 3).map Char.ofNat),
      String.mk (((chunk.drop 3).take 3).map Char.ofNat),
      ((chunk.drop 6).take 4).foldr (fun b acc => b + 256 * acc) 0,
      ((chunk.drop 10).take 8).foldl (fun acc b => acc * 256 + b) 0⟩, ?_⟩
  unfold decode_frame
  rw [e1, e2, e3, e4]

/-- A non-full stride of fewer than 18 bytes (first six bytes ASCII) fails
inside `struct.unpack`: the 4-byte rate slice (fewer than 10 bytes) or the
8-byte timestamp slice (10 to 17 bytes) is short. -/
theorem decode_frame_short (chunk : List Nat) (h18 : chunk.length < 18)
    (hascii : ∀ b ∈ chunk.take 6, b < 128) :
    decode_frame chunk = .error "struct.error" := by
  have htk : chunk.take 6 = chunk.take 3 ++ (chunk.drop 3).take 3 :=
    List.take_add chunk 3 3
  have h1 : ∀ b ∈ chunk.take 3, b < 128 := by
    intro b hb
    exact hascii b (htk ▸ List.mem_append.mpr (Or.inl hb))
  have h2 : ∀ b ∈ (chunk.drop 3).take 3, b < 128 := by
    intro b hb
    exact hascii b (htk ▸ List.mem_append.mpr (Or.inr hb))
  have e1 : decode_ascii (chunk.take 3) =
      .ok (String.mk ((chunk.take 3).map Char.ofNat)) := by
    unfold decode_ascii
    rw [if_pos h1]
  have e2 : decode_ascii ((chunk.drop 3).take 3) =
      .ok (String.mk (((chunk.drop 3).take 3).map Char.ofNat)) := by
    unfold decode_ascii
    rw [if_pos h2]
  unfold decode_frame
  rw [e1, e2]
  by_cases h10 : chunk.length < 10
  · have l3 : ((chunk.drop 6).take 4).length ≠ 4 := by
      simp only [List.length_take, List.length_drop]
      omega
    have e3 : unpack_f32le ((chunk.drop 6).take 4) = .error "struct.error" := by
      unfold unpack_f32le
      rw [if_neg l3]
    rw [e3]
  · have l3 : ((chunk.drop 6).take 4).length = 4 := by
      simp only [List.length_take, List.length_drop]
      omega
    have e3 : unpack_f32le ((chunk.drop 6).take 4) =
        .ok (((chunk.drop 6).take 4).foldr (fun b acc => b + 256 * acc) 0) := by
      unfold unpack_f32le
      rw [if_pos l3]
    have l4 : ((chunk.drop 10).take 8).length ≠ 8 := by
      simp only [List.length_take, List.length_drop]
      omega
    have e4 : unpack_u64be ((chunk.drop 10).take 8) = .error "struct.error" := by
      unfold unpack_u64be
      rw [if_neg l4]
    rw [e3, e4]

/-- The decode result does not depend on the fuel as long as the fuel covers
the buffer length. -/
theorem unmarshal_aux_fuel_irrel :
    ∀ (n m : Nat) (data : List Nat), data.length ≤ n → data.length ≤ m →
      unmarshal_aux n data = unmarshal_aux m data := by
  intro n
  induction n with
  | zero =>
    intro m data hn _
    have hE : data = [] := List.eq_nil_of_length_eq_zero (Nat.le_zero.mp hn)
    subst hE
    cases m <;> rfl
  | succ n ih =>
    intro m data hn hm
    cases data with
    | nil => cases m <;> rfl
    | cons b bs =>
      cases m with
      | zero => simp at hm
      | succ m =>
        simp only [unmarshal_aux]
        have hlen : ((b :: bs).drop 32).length ≤ n := by
          simp only [List.length_drop, List.length_cons]
          simp only [List.length_cons] at hn
          omega
        have hlen2 : ((b :: bs).drop 32).length ≤ m := by
          simp only [List.length_drop, List.length_cons]
          simp only [List.length_cons] at hm
          omega
        rw [ih m ((b :: bs).drop 32) hlen hlen2]

/-- One unfolding of `unmarshal_message`'s loop on a non-empty buffer. -/
theorem unmarshal_aux_succ (fuel : Nat) (data : List Nat) (h : data ≠ []) :
    unmarshal_aux (fuel + 1) data =
      match decode_frame (data.take 32) with
      | .error e => .error e
      | .ok q =>
        match unmarshal_aux fuel (data.drop 32) with
        | .error e => .error e
        | .ok qs => .ok (q :: qs) := by
  cases data with
  | nil => exact absurd rfl h
  | cons b bs => rfl

/-- Peeling one complete 32-byte frame off the front of the buffer. -/
theorem unmarshal_message_frame (f rest : List Nat) (hf : f.length = 32) :
    unmarshal_message (f ++ rest) =
      match decode_frame f with
      | .error e => .error e
      | .ok q =>
        match unmarshal_message rest with
        | .error e => .error e
        | .ok qs => .ok (q :: qs) := by
  have hne : f ++ rest ≠ [] := by
    intro hE
    have := congrArg List.length hE
    simp [hf] at this
  have hlen : (f ++ rest).length = (31 + rest.length) + 1 := by
    simp [hf]
    omega
  unfold unmarshal_message
  rw [hlen, unmarshal_aux_succ _ _ hne]
  have htake : (f ++ rest).take 32 = f := by
    rw [List.take_append_eq_append_take]
    have : f.take 32 = f := List.take_of_length_le (by omega)
    simp [this, hf]
  have hdrop : (f ++ rest).drop 32 = rest := by
    rw [List.drop_append_eq_append_drop]
    have : f.drop 32 = [] := List.drop_eq_nil_of_le (by omega)
    simp [this, hf]
  rw [htake, hdrop,
    unmarshal_aux_fuel_irrel (31 + rest.length) rest.length rest (by omega)
      (le_refl _)]

/-- Behaviour of `unmarshal_message` on the trailing partial stride. -/
theorem unmarshal_message_rem (rem : List Nat) (hlen : rem.length < 32)
    (hascii : ∀ b ∈ rem.take 6, b < 128) :
    (rem.length ≠ 0 → rem.length < 18 →
        unmarshal_message rem = .error "struct.error") ∧
    (18 ≤ rem.length → ∃ q, unmarshal_message rem = .ok [q]) := by
  constructor
  · intro h0 h18
    obtain ⟨fuel, hfE⟩ : ∃ fuel, rem.length = fuel + 1 := ⟨rem.length - 1, by omega⟩
    unfold unmarshal_message
    rw [hfE, unmarshal_aux_succ fuel rem
      (by intro hE; subst hE; simp at h0)]
    have htake : rem.take 32 = rem := List.take_of_length_le (by omega)
    rw [htake, decode_frame_short rem h18 hascii]
  · intro h18
    obtain ⟨fuel, hfE⟩ : ∃ fuel, rem.length = fuel + 1 := ⟨rem.length - 1, by omega⟩
    unfold unmarshal_message
    rw [hfE, unmarshal_aux_succ fuel rem
      (by intro hE; subst hE; simp at h18)]
    have htake : rem.take 32 = rem := List.take_of_length_le (by omega)
    obtain ⟨q, hq⟩ := decode_frame_ok rem h18 hascii
    have hdrop : rem.drop 32 = [] := List.drop_eq_nil_of_le (by omega)
    have hnil : unmarshal_aux fuel (rem.drop 32) = .ok [] := by
      rw [hdrop]
      cases fuel <;> rfl
    rw [htake, hq, hnil]
    exact ⟨q, rfl⟩

/-- A concrete 33-byte buffer: one complete frame (`USD`, `EUR`, rate bytes
`00 00 80 3f` = 1.0f, timestamp 1) followed by a single trailing byte. -/
def data33 : List Nat :=
  [85, 83, 68, 69, 85, 82, 0, 0, 128, 63, 0, 0, 0, 0, 0, 0, 0, 1,
   0, 0, 0, 0, 0, 0, 0, 0, 0, 0, 0, 0, 0, 0, 0]

/-- C3 counterexample: on a 33-byte buffer (one complete frame plus one
trailing byte) `unmarshal_message` raises `struct.error` from the short
4-byte rate slice of the partial stride instead of ignoring the partial
frame and returning the complete frame's record. -/
theorem C3_counterexample :
    data33.length = 33 ∧ ¬(33 % 32 = 0) ∧
    unmarshal_message data33 = .error "struct.error" := by
  refine ⟨rfl, by decide, ?_⟩
  rfl

/-- C3 amended: decoding walks the buffer in 32-byte strides, but a trailing
partial frame is not ignored — for a buffer of complete ASCII-headed frames
plus a remainder: an empty remainder decodes to exactly the complete frames'
records; a remainder of 1 to 17 bytes raises `struct.error` (short rate or
timestamp slice); a remainder of 18 to 31 bytes is decoded as one additional
record from the partial stride. -/
theorem C3_amended (frames : List (List Nat)) (rem : List Nat)
    (hframes : ∀ f ∈ frames, f.length = 32 ∧ ∀ b ∈ f.take 6, b < 128)
    (hrem : rem.length < 32) (hremascii : ∀ b ∈ rem.take 6, b < 128) :
    (rem = [] → ∃ qs, unmarshal_message (frames.flatten ++ rem) = .ok qs ∧
        qs.length = frames.length) ∧
    (rem ≠ [] → rem.length < 18 →
        unmarshal_message (frames.flatten ++ rem) = .error "struct.error") ∧
    (18 ≤ rem.length → ∃ qs, unmarshal_message (frames.flatten ++ rem) = .ok qs ∧
        qs.length = frames.length + 1) := by
  induction frames with
  | nil =>
    simp only [List.flatten_nil, List.nil_append, List.length_nil]
    refine ⟨?_, ?_, ?_⟩
    · intro hE
      subst hE
      exact ⟨[], rfl, rfl⟩
    · intro h0 h18
      exact (unmarshal_message_rem rem hrem hremascii).1
        (fun hz => h0 (List.length_eq_zero.mp hz)) h18
    · intro h18
      obtain ⟨q, hq⟩ := (unmarshal_message_rem rem hrem hremascii).2 h18
      exact ⟨[q], hq, rfl⟩
  | cons f fs ih =>
    have hf := hframes f (List.mem_cons_self f fs)
    have hfs : ∀ g ∈ fs, g.length = 32 ∧ ∀ b ∈ g.take 6, b < 128 :=
      fun g hg => hframes g (List.mem_cons_of_mem f hg)
    have ihfs := ih hfs
    have hjoin : (f :: fs).flatten ++ rem = f ++ (fs.flatten ++ rem) := by simp
    rw [hjoin, unmarshal_message_frame f (fs.flatten ++ rem) hf.1]
    obtain ⟨q, hq⟩ := decode_frame_ok f (by rw [hf.1]; norm_num) hf.2
    rw [hq]
    refine ⟨?_, ?_, ?_⟩
    · intro hE
      obtain ⟨qs, hqs, hlenqs⟩ := ihfs.1 hE
      rw [hqs]
      exact ⟨q :: qs, rfl, by simp [hlenqs]⟩
    · intro h0 h18
      rw [ihfs.2.1 h0 h18]
    · intro h18
      obtain ⟨qs, hqs, hlenqs⟩ := ihfs.2.2 h18
      rw [hqs]
      exact ⟨q :: qs, rfl, by simp [hlenqs]⟩

/-- Witness for C3's amended theorem: an 18-byte partial stride alone is
decoded as one record rather than being ignored or erroring. -/
theorem C3_amended_witness :
    ∃ qs, unmarshal_message (List.replicate 18 0) = .ok qs ∧
      qs.length = 0 + 1 :=
  (C3_amended [] (List.replicate 18 0) (by simp) (by simp)
    (by intro b hb; simp [List.mem_take_iff_getElem] at hb; omega)).2.2
    (by simp)

/-- Witness for C5's amended theorem at the counterexample's predecessor
map and a degenerate self-loop edge. -/
theorem C5_amended_witness :
    (reconstruct_negative_cycle [("EUR", "GBP"), ("GBP", "EUR")] ("USD", "USD") =
      [] ↔ "USD" = "USD") :=
  C5_amended [("EUR", "GBP"), ("GBP", "EUR")] "USD" "USD"
